import Mathlib

/-!
# Plan fingerprints of `pkg/planner/core/hashcode.go`

A shallow embedding of the `HashCode` methods of the logical plan nodes
(default rule, Projection, TableDual, Selection, Limit) and of the helper
`encodeIntAsUint32`, followed by theorems about the byte strings they return.

Conventions of the embedding:

* a Go `byte` is a `Fin 256`, a `[]byte` is a `List` of them;
* a Go `int` is an `Int`; the conversion `uint32(value)` keeps the low 32 bits;
* a Go `uint32`/`uint64` is a `Nat`; `byte(v >> k)` keeps the low 8 bits;
* `binary.BigEndian.PutUint32/64` write in place, so they are modelled as
  index-wise updates of the destination buffer;
* `make([]byte, 0, n)` is the empty list (the capacity is not observable) and
  `make([]byte, n)` is `n` zero bytes.
-/

namespace core

/-- A Go `byte`. -/
abbrev Byte := Fin 256

/-- A Go `[]byte`. -/
abbrev Bytes := List Byte

/-- The Go conversion `byte(v)` of an unsigned integer: the low 8 bits. -/
def toByte (v : Nat) : Byte := ⟨v % 256, Nat.mod_lt v (by decide)⟩

/-- The Go conversion `uint32(value)` of an `int`: the low 32 bits of the
two's-complement representation. -/
def uint32 (value : Int) : Nat := (value % 4294967296).toNat

/-- The call `binary.BigEndian.PutUint32(b[off:], v)`: four in-place writes
`b[off+0] = byte(v >> 24)`, ..., `b[off+3] = byte(v)`. The slice `b[off:]`
shares the storage of `b`, so the writes land at index `off + i` of `b`. Go
panics when fewer than four bytes remain at `off`; every call below has room,
and an update past the end leaves the list as it is. -/
def PutUint32 (b : Bytes) (off : Nat) (v : Nat) : Bytes :=
  (((b.set off (toByte (v >>> 24))).set (off + 1) (toByte (v >>> 16))).set
    (off + 2) (toByte (v >>> 8))).set (off + 3) (toByte v)

/-- The call `binary.BigEndian.PutUint64(b[off:], v)`: eight in-place writes
`b[off+0] = byte(v >> 56)`, ..., `b[off+7] = byte(v)`. -/
def PutUint64 (b : Bytes) (off : Nat) (v : Nat) : Bytes :=
  (((((((b.set off (toByte (v >>> 56))).set (off + 1) (toByte (v >>> 48))).set
    (off + 2) (toByte (v >>> 40))).set (off + 3) (toByte (v >>> 32))).set
    (off + 4) (toByte (v >>> 24))).set (off + 5) (toByte (v >>> 16))).set
    (off + 6) (toByte (v >>> 8))).set (off + 7) (toByte v)

/-- The function `encodeIntAsUint32`: a zeroed `[4]byte` is filled by `PutUint32`
with `uint32(value)` and appended to `result`. -/
def encodeIntAsUint32 (result : Bytes) (value : Int) : Bytes :=
  let buf : Bytes := List.replicate 4 0
  let buf := PutUint32 buf 0 (uint32 value)
  result ++ buf

/-- The function `bytes.Compare` of the Go standard library: lexicographic
comparison of two byte strings, with result `-1`, `0` or `+1`. -/
def bytesCompare : Bytes → Bytes → Int
  | [], [] => 0
  | [], _ :: _ => -1
  | _ :: _, [] => 1
  | a :: as, b :: bs =>
    if a < b then -1 else if b < a then 1 else bytesCompare as bs

/-- The ordering that a comparison function `cmp` hands to `slices.SortFunc`:
`a` may stand before `b` when `cmp a b ≤ 0`. -/
def cmpLE {α : Type} (cmp : α → α → Int) (a b : α) : Prop := cmp a b ≤ 0

instance {α : Type} (cmp : α → α → Int) : DecidableRel (cmpLE cmp) :=
  fun a b => inferInstanceAs (Decidable (cmp a b ≤ 0))

/-- The function `slices.SortFunc` of the Go standard library, which sorts a
slice in ascending order as determined by `cmp`. The library routine is an
unstable pattern-defeating quicksort; here it is an insertion sort. For a
comparison whose `0` means equality (as `bytes.Compare`) every sorted
permutation of the input is the same list, see `sorted_perm_unique`, so the
choice of algorithm cannot be observed. -/
def SortFunc {α : Type} (x : List α) (cmp : α → α → Int) : List α :=
  List.insertionSort (cmpLE cmp) x

/-- The interface `expression.Expression`, of which the fingerprint rules call
one method only: an expression is carried as the bytes `expr.HashCode()`
returns. -/
structure Expression where
  /-- The bytes returned by `expr.HashCode()`. -/
  HashCode : Bytes
  deriving DecidableEq

/-- The fields of `baseLogicalPlan` (with its embedded `basePlan`) and the
accessors the fingerprint rules read. `Plan` is the type of the child plans. -/
structure baseLogicalPlan (Plan : Type) where
  /-- The value of `p.ID()`. -/
  id : Int
  /-- The value of `plancodec.TypeStringToPhysicalID(p.TP())`: the type tag. -/
  tpID : Int
  /-- The value of `p.SelectBlockOffset()`: the location tag. -/
  blockOffset : Int
  /-- The child plans. -/
  children : List Plan

/-- The node `LogicalProjection`. -/
structure LogicalProjection (Plan : Type) extends baseLogicalPlan Plan where
  /-- The projected expressions, in output order. -/
  Exprs : List Expression

/-- The node `LogicalTableDual`. -/
structure LogicalTableDual (Plan : Type) extends baseLogicalPlan Plan where
  /-- The number of rows, a Go `int`. -/
  RowCount : Int

/-- The node `LogicalSelection`. -/
structure LogicalSelection (Plan : Type) extends baseLogicalPlan Plan where
  /-- The conjuncts of the filter. -/
  Conditions : List Expression

/-- The node `LogicalLimit`. `Offset` and `Count` are Go `uint64` values. -/
structure LogicalLimit (Plan : Type) extends baseLogicalPlan Plan where
  /-- The number of rows skipped. -/
  Offset : Nat
  /-- The number of rows returned at most. -/
  Count : Nat

/-- The method `(*baseLogicalPlan).HashCode`, the default rule. -/
def baseLogicalPlan.HashCode {Plan : Type} (p : baseLogicalPlan Plan) : Bytes :=
  let result : Bytes := []
  let result := encodeIntAsUint32 result p.id
  result

/-- The method `(*LogicalProjection).HashCode`. The `for ... range p.Exprs`
loop is a left fold over the expressions that threads `result`. -/
def LogicalProjection.HashCode {Plan : Type} (p : LogicalProjection Plan) : Bytes :=
  let result : Bytes := []
  let result := encodeIntAsUint32 result p.tpID
  let result := encodeIntAsUint32 result p.blockOffset
  let result := encodeIntAsUint32 result (p.Exprs.length : Int)
  p.Exprs.foldl
    (fun result expr =>
      let exprHashCode := expr.HashCode
      let result := encodeIntAsUint32 result (exprHashCode.length : Int)
      result ++ exprHashCode)
    result

/-- The method `(*LogicalTableDual).HashCode`. -/
def LogicalTableDual.HashCode {Plan : Type} (p : LogicalTableDual Plan) : Bytes :=
  let result : Bytes := []
  let result := encodeIntAsUint32 result p.tpID
  let result := encodeIntAsUint32 result p.blockOffset
  let result := encodeIntAsUint32 result p.RowCount
  result

/-- The method `(*LogicalSelection).HashCode`. The first loop fills
`condHashCodes` with the fingerprints of the conditions in input order, the
slice is sorted with `bytes.Compare`, and the second loop is a left fold that
threads `result`. -/
def LogicalSelection.HashCode {Plan : Type} (p : LogicalSelection Plan) : Bytes :=
  let result : Bytes := []
  let result := encodeIntAsUint32 result p.tpID
  let result := encodeIntAsUint32 result p.blockOffset
  let result := encodeIntAsUint32 result (p.Conditions.length : Int)
  let condHashCodes := p.Conditions.map (fun expr => expr.HashCode)
  let condHashCodes := SortFunc condHashCodes (fun i j => bytesCompare i j)
  condHashCodes.foldl
    (fun result condHashCode =>
      let result := encodeIntAsUint32 result (condHashCode.length : Int)
      result ++ condHashCode)
    result

/-- The method `(*LogicalLimit).HashCode`: a buffer of 24 zero bytes is
filled in place. -/
def LogicalLimit.HashCode {Plan : Type} (p : LogicalLimit Plan) : Bytes :=
  let result : Bytes := List.replicate 24 0
  let result := PutUint32 result 0 (uint32 p.tpID)
  let result := PutUint32 result 4 (uint32 p.blockOffset)
  let result := PutUint64 result 8 p.Offset
  let result := PutUint64 result 16 p.Count
  result

/-- The interface `LogicalPlan` over the node kinds of this file: the default
rule stands for every kind without a `HashCode` method of its own. -/
inductive LogicalPlan where
  | base (p : baseLogicalPlan LogicalPlan)
  | projection (p : LogicalProjection LogicalPlan)
  | tableDual (p : LogicalTableDual LogicalPlan)
  | selection (p : LogicalSelection LogicalPlan)
  | limit (p : LogicalLimit LogicalPlan)

/-- The embedded `baseLogicalPlan` of a node. -/
def LogicalPlan.toBase : LogicalPlan → baseLogicalPlan LogicalPlan
  | .base p => p
  | .projection p => p.tobaseLogicalPlan
  | .tableDual p => p.tobaseLogicalPlan
  | .selection p => p.tobaseLogicalPlan
  | .limit p => p.tobaseLogicalPlan

/-- The call `p.HashCode()` on a `LogicalPlan` value: dynamic dispatch to the
method of the node's kind. -/
def LogicalPlan.HashCode : LogicalPlan → Bytes
  | .base p => p.HashCode
  | .projection p => p.HashCode
  | .tableDual p => p.HashCode
  | .selection p => p.HashCode
  | .limit p => p.HashCode

/-- Whether the node's kind has a `HashCode` method of its own. -/
def LogicalPlan.specialized : LogicalPlan → Bool
  | .base _ => false
  | _ => true


/-! ### Vocabulary of the specification

The specification is worded with `u32`, length-prefixed blocks and the
lexicographic order of byte strings; these are their definitions, written
independently of the code above. -/

/-- The big-endian 32-bit encoding `u32(v)`: the four base-256 digits of the
low 32 bits of `v`, most significant first. -/
def u32be (v : Int) : Bytes :=
  let n := (v % 2 ^ 32).toNat
  [toByte (n / 256 ^ 3), toByte (n / 256 ^ 2), toByte (n / 256), toByte n]

/-- The big-endian 64-bit encoding `u64(v)`: the eight base-256 digits of the
low 64 bits of `v`, most significant first. -/
def u64be (v : Nat) : Bytes :=
  let n := v % 2 ^ 64
  [toByte (n / 256 ^ 7), toByte (n / 256 ^ 6), toByte (n / 256 ^ 5), toByte (n / 256 ^ 4),
   toByte (n / 256 ^ 3), toByte (n / 256 ^ 2), toByte (n / 256), toByte n]

/-- The block `lengthPrefixed(b)`: the 32-bit length of `b`, then `b`. -/
def lengthPrefixed (b : Bytes) : Bytes := u32be (b.length : Int) ++ b

/-- The concatenation of the length-prefixed blocks of a list of byte strings,
in list order. -/
def framed : List Bytes → Bytes
  | [] => []
  | b :: bs => lengthPrefixed b ++ framed bs

/-- Non-strict lexicographic order of byte strings: equal, or the first
differing byte is smaller, or a proper initial segment. -/
def lexLE (a b : Bytes) : Prop := a = b ∨ List.Lex (· < ·) a b

instance : DecidableRel lexLE := fun _ _ => inferInstanceAs (Decidable (_ ∨ _))

/-- A value that fits in 32 bits. -/
def fits32 (v : Int) : Prop := 0 ≤ v ∧ v < 2 ^ 32

instance (v : Int) : Decidable (fits32 v) := inferInstanceAs (Decidable (_ ∧ _))

/-- The value of a byte string read as a big-endian unsigned integer, as
`binary.BigEndian.Uint32` reads four bytes: each byte is one base-256 digit,
most significant first. -/
def bigEndianValue (b : Bytes) : Nat := b.foldl (fun acc x => acc * 256 + x.val) 0

/-- The method `(*LogicalSelection).HashCode` with the sorting routine as a
parameter: the same statements, with `sort` in the place of the call
`slices.SortFunc(condHashCodes, bytes.Compare)`. -/
def LogicalSelection.HashCodeWith {Plan : Type} (sort : List Bytes → List Bytes)
    (p : LogicalSelection Plan) : Bytes :=
  let result : Bytes := []
  let result := encodeIntAsUint32 result p.tpID
  let result := encodeIntAsUint32 result p.blockOffset
  let result := encodeIntAsUint32 result (p.Conditions.length : Int)
  let condHashCodes := p.Conditions.map (fun expr => expr.HashCode)
  let condHashCodes := sort condHashCodes
  condHashCodes.foldl
    (fun result condHashCode =>
      let result := encodeIntAsUint32 result (condHashCode.length : Int)
      result ++ condHashCode)
    result

/-- A stable sort by `bytes.Compare`, the sort the specification asks for: the
merge sort of the core library, in which elements that compare equal keep
their relative input order. -/
def stableSort (x : List Bytes) : List Bytes :=
  x.mergeSort (fun a b => decide (bytesCompare a b ≤ 0))

/-- The Selection rule as the specification words it: the fingerprints of the
conditions are sorted with a stable sort, and the payload is
`typeTag ++ locationTag ++ u32(conditionCount)` followed by the
length-prefixed sorted fingerprints. -/
def LogicalSelection.HashCodeSpec {Plan : Type} (p : LogicalSelection Plan) : Bytes :=
  u32be p.tpID ++ u32be p.blockOffset ++ u32be (p.Conditions.length : Int)
    ++ framed (stableSort (p.Conditions.map (fun expr => expr.HashCode)))

/-! ## Lemmas on the encoding helpers -/

theorem encodeIntAsUint32_eq (result : Bytes) (value : Int) :
    encodeIntAsUint32 result value = result ++ u32be value := by
  simp only [encodeIntAsUint32, PutUint32, u32be, uint32, Nat.shiftRight_eq_div_pow]
  rfl

theorem u32be_length (v : Int) : (u32be v).length = 4 := rfl

theorem toByte_eq_iff (a b : Nat) : toByte a = toByte b ↔ a % 256 = b % 256 := by
  simp [toByte, Fin.ext_iff]

theorem u32be_eq_iff (a b : Int) : u32be a = u32be b ↔ a % 2 ^ 32 = b % 2 ^ 32 := by
  constructor
  · intro h
    simp only [u32be, List.cons.injEq, toByte_eq_iff, and_true] at h
    have ha : 0 ≤ a % 2 ^ 32 := Int.emod_nonneg _ (by norm_num)
    have hb : 0 ≤ b % 2 ^ 32 := Int.emod_nonneg _ (by norm_num)
    have ha2 : a % 2 ^ 32 < 2 ^ 32 := Int.emod_lt_of_pos _ (by norm_num)
    have hb2 : b % 2 ^ 32 < 2 ^ 32 := Int.emod_lt_of_pos _ (by norm_num)
    omega
  · intro h
    simp only [u32be, h]

theorem u32be_inj_of_fits32 {a b : Int} (ha : fits32 a) (hb : fits32 b)
    (h : u32be a = u32be b) : a = b := by
  have h2 := (u32be_eq_iff a b).mp h
  obtain ⟨ha1, ha2⟩ := ha
  obtain ⟨hb1, hb2⟩ := hb
  omega

theorem lengthPrefixed_length (b : Bytes) : (lengthPrefixed b).length = 4 + b.length := by
  simp [lengthPrefixed, u32be_length]

theorem foldl_encode_eq_framed (hs : List Bytes) (result : Bytes) :
    hs.foldl (fun result h => encodeIntAsUint32 result (h.length : Int) ++ h) result
      = result ++ framed hs := by
  induction hs generalizing result with
  | nil => simp [framed]
  | cons h hs ih =>
    rw [List.foldl_cons, ih]
    simp only [framed, lengthPrefixed, encodeIntAsUint32_eq, List.append_assoc]

theorem foldl_expr_eq_framed (es : List Expression) (result : Bytes) :
    es.foldl (fun result expr =>
        encodeIntAsUint32 result (expr.HashCode.length : Int) ++ expr.HashCode) result
      = result ++ framed (es.map (fun expr => expr.HashCode)) := by
  rw [← foldl_encode_eq_framed, List.foldl_map]

/-- Length framing can be decoded: a list of byte strings whose lengths fit in
32 bits is determined by its framed concatenation. -/
theorem framed_injective : ∀ (xs ys : List Bytes),
    (∀ x ∈ xs, fits32 (x.length : Int)) → (∀ y ∈ ys, fits32 (y.length : Int)) →
    framed xs = framed ys → xs = ys
  | [], [], _, _, _ => rfl
  | [], y :: ys, _, _, h => by
    have := congrArg List.length h
    simp [framed, lengthPrefixed_length] at this
    omega
  | x :: xs, [], _, _, h => by
    have := congrArg List.length h
    simp [framed, lengthPrefixed_length] at this
  | x :: xs, y :: ys, hx, hy, h => by
    simp only [framed, lengthPrefixed, List.append_assoc] at h
    obtain ⟨h1, h2⟩ := List.append_inj h (by simp [u32be_length])
    have hl : (x.length : Int) = (y.length : Int) :=
      u32be_inj_of_fits32 (hx x (List.mem_cons_self _ _)) (hy y (List.mem_cons_self _ _)) h1
    obtain ⟨h3, h4⟩ := List.append_inj h2 (by exact_mod_cast hl)
    have ih := framed_injective xs ys (fun a ha => hx a (List.mem_cons_of_mem _ ha))
      (fun a ha => hy a (List.mem_cons_of_mem _ ha)) h4
    rw [h3, ih]


/-! ## Lemmas on `bytes.Compare` and the sort -/

theorem bytesCompare_lt_iff : ∀ (a b : Bytes),
    bytesCompare a b < 0 ↔ List.Lex (· < ·) a b
  | [], [] => by simp [bytesCompare, List.Lex.not_nil_right]
  | [], _ :: _ => by simp [bytesCompare, List.Lex.nil]
  | _ :: _, [] => by simp [bytesCompare, List.Lex.not_nil_right]
  | a :: as, b :: bs => by
    have ih := bytesCompare_lt_iff as bs
    unfold bytesCompare
    by_cases h1 : a < b
    · simp [h1, List.Lex.rel h1]
    · by_cases h2 : b < a
      · simp only [h1, h2, if_false, if_true]
        constructor
        · intro h; omega
        · intro h
          cases h with
          | cons h => exact absurd h2 (lt_irrefl _)
          | rel h => exact absurd h h1
      · have hab : a = b := le_antisymm (not_lt.mp h2) (not_lt.mp h1)
        subst hab
        simp only [h1, if_false, ih]
        exact List.Lex.cons_iff.symm

theorem bytesCompare_eq_zero_iff : ∀ (a b : Bytes), bytesCompare a b = 0 ↔ a = b
  | [], [] => by simp [bytesCompare]
  | [], _ :: _ => by simp [bytesCompare]
  | _ :: _, [] => by simp [bytesCompare]
  | a :: as, b :: bs => by
    have ih := bytesCompare_eq_zero_iff as bs
    unfold bytesCompare
    by_cases h1 : a < b
    · simp [h1, ne_of_lt h1]
    · by_cases h2 : b < a
      · simp [h1, h2, ne_of_gt h2]
      · have hab : a = b := le_antisymm (not_lt.mp h2) (not_lt.mp h1)
        subst hab
        simp [h1, ih]

/-- The order `bytes.Compare` gives to `slices.SortFunc` is the lexicographic
order of byte strings. -/
theorem cmpLE_bytesCompare_iff (a b : Bytes) :
    cmpLE (fun i j => bytesCompare i j) a b ↔ lexLE a b := by
  show bytesCompare a b ≤ 0 ↔ a = b ∨ List.Lex (· < ·) a b
  rw [← bytesCompare_lt_iff, ← bytesCompare_eq_zero_iff]
  omega

theorem lexLE_refl (a : Bytes) : lexLE a a := Or.inl rfl

theorem lexLE_total (a b : Bytes) : lexLE a b ∨ lexLE b a := by
  rcases trichotomous_of (List.Lex ((· < ·) : Byte → Byte → Prop)) a b with h | h | h
  · exact Or.inl (Or.inr h)
  · exact Or.inl (Or.inl h)
  · exact Or.inr (Or.inr h)

theorem lexLE_trans {a b c : Bytes} (hab : lexLE a b) (hbc : lexLE b c) : lexLE a c := by
  rcases hab with rfl | hab
  · exact hbc
  · rcases hbc with rfl | hbc
    · exact Or.inr hab
    · exact Or.inr (IsTrans.trans _ _ _ hab hbc)

theorem lexLE_antisymm {a b : Bytes} (hab : lexLE a b) (hba : lexLE b a) : a = b := by
  rcases hab with h | hab
  · exact h
  · rcases hba with h | hba
    · exact h.symm
    · exact absurd hba (asymm_of (List.Lex ((· < ·) : Byte → Byte → Prop)) hab)

instance : IsTotal Bytes lexLE := ⟨lexLE_total⟩
instance : IsTrans Bytes lexLE := ⟨fun _ _ _ => lexLE_trans⟩
instance : IsAntisymm Bytes lexLE := ⟨fun _ _ => lexLE_antisymm⟩

theorem cmpLE_bytesCompare_eq : cmpLE (fun i j => bytesCompare i j) = lexLE := by
  funext a b
  exact propext (cmpLE_bytesCompare_iff a b)

/-- Two lexicographically non-decreasing arrangements of the same byte strings
are the same list. -/
theorem sorted_perm_unique {s₁ s₂ : List Bytes} (hp : s₁.Perm s₂)
    (h₁ : s₁.Sorted lexLE) (h₂ : s₂.Sorted lexLE) : s₁ = s₂ :=
  List.eq_of_perm_of_sorted hp h₁ h₂

theorem SortFunc_perm (x : List Bytes) :
    (SortFunc x (fun i j => bytesCompare i j)).Perm x :=
  List.perm_insertionSort _ x

theorem SortFunc_sorted (x : List Bytes) :
    (SortFunc x (fun i j => bytesCompare i j)).Sorted lexLE := by
  have h := List.sorted_insertionSort lexLE x
  unfold SortFunc
  convert h using 2
  exact cmpLE_bytesCompare_eq


/-! ## Closed forms of the fingerprints -/

theorem baseLogicalPlan_hashCode_eq {Plan : Type} (p : baseLogicalPlan Plan) :
    p.HashCode = u32be p.id := by
  simp only [baseLogicalPlan.HashCode, encodeIntAsUint32_eq, List.nil_append]

theorem LogicalProjection_hashCode_eq {Plan : Type} (p : LogicalProjection Plan) :
    p.HashCode = u32be p.tpID ++ (u32be p.blockOffset ++ (u32be (p.Exprs.length : Int)
      ++ framed (p.Exprs.map (fun expr => expr.HashCode)))) := by
  simp only [LogicalProjection.HashCode]
  rw [foldl_expr_eq_framed]
  simp only [encodeIntAsUint32_eq, List.nil_append, List.append_assoc]

theorem LogicalTableDual_hashCode_eq {Plan : Type} (p : LogicalTableDual Plan) :
    p.HashCode = u32be p.tpID ++ (u32be p.blockOffset ++ u32be p.RowCount) := by
  simp only [LogicalTableDual.HashCode, encodeIntAsUint32_eq, List.nil_append,
    List.append_assoc]

theorem LogicalSelection_hashCode_eq {Plan : Type} (p : LogicalSelection Plan) :
    p.HashCode = u32be p.tpID ++ (u32be p.blockOffset ++ (u32be (p.Conditions.length : Int)
      ++ framed (SortFunc (p.Conditions.map (fun expr => expr.HashCode))
          (fun i j => bytesCompare i j)))) := by
  simp only [LogicalSelection.HashCode]
  rw [foldl_encode_eq_framed]
  simp only [encodeIntAsUint32_eq, List.nil_append, List.append_assoc]

theorem LogicalLimit_hashCode_eq {Plan : Type} (p : LogicalLimit Plan) :
    p.HashCode = [toByte (uint32 p.tpID >>> 24), toByte (uint32 p.tpID >>> 16),
      toByte (uint32 p.tpID >>> 8), toByte (uint32 p.tpID),
      toByte (uint32 p.blockOffset >>> 24), toByte (uint32 p.blockOffset >>> 16),
      toByte (uint32 p.blockOffset >>> 8), toByte (uint32 p.blockOffset),
      toByte (p.Offset >>> 56), toByte (p.Offset >>> 48), toByte (p.Offset >>> 40),
      toByte (p.Offset >>> 32), toByte (p.Offset >>> 24), toByte (p.Offset >>> 16),
      toByte (p.Offset >>> 8), toByte p.Offset,
      toByte (p.Count >>> 56), toByte (p.Count >>> 48), toByte (p.Count >>> 40),
      toByte (p.Count >>> 32), toByte (p.Count >>> 24), toByte (p.Count >>> 16),
      toByte (p.Count >>> 8), toByte p.Count] := by
  simp only [LogicalLimit.HashCode, PutUint32, PutUint64, List.replicate, List.set_cons_zero,
    List.set_cons_succ, Nat.zero_add]

theorem u32be_eq_uint32 (v : Int) :
    u32be v = [toByte (uint32 v >>> 24), toByte (uint32 v >>> 16),
      toByte (uint32 v >>> 8), toByte (uint32 v)] := by
  simp only [u32be, uint32, Nat.shiftRight_eq_div_pow]
  rfl

/-- The sorted fingerprints of a Selection are the one lexicographically
non-decreasing arrangement of the fingerprints of its conditions. -/
theorem SortFunc_eq_of_sorted_perm {x s : List Bytes} (hp : s.Perm x)
    (hs : s.Sorted lexLE) : SortFunc x (fun i j => bytesCompare i j) = s :=
  sorted_perm_unique ((SortFunc_perm x).trans hp.symm) (SortFunc_sorted x) hs

theorem SortFunc_congr_perm {x y : List Bytes} (hp : x.Perm y) :
    SortFunc x (fun i j => bytesCompare i j) = SortFunc y (fun i j => bytesCompare i j) :=
  SortFunc_eq_of_sorted_perm ((SortFunc_perm y).trans hp.symm) (SortFunc_sorted y)


/-! ## Selection: order of the conditions -/

/-- C1: `LogicalSelection.HashCode` is invariant under reordering of the
conditions. Two Selection nodes with the same type tag and location tag whose
lists of condition fingerprints are permutations of each other have
byte-for-byte equal fingerprints; `[c1, c2]` against `[c2, c1]` is the
instance `List.Perm.swap`. -/
theorem selection_hashCode_perm_invariant {Plan : Type} (p q : LogicalSelection Plan)
    (htp : q.tpID = p.tpID) (hoff : q.blockOffset = p.blockOffset)
    (hperm : (q.Conditions.map (fun expr => expr.HashCode)).Perm
      (p.Conditions.map (fun expr => expr.HashCode))) :
    q.HashCode = p.HashCode := by
  have hlen : q.Conditions.length = p.Conditions.length := by
    simpa using hperm.length_eq
  rw [LogicalSelection_hashCode_eq, LogicalSelection_hashCode_eq, htp, hoff, hlen,
    SortFunc_congr_perm hperm]

/-- The swap of two conditions at type tag 5 and location tag 3, an instance of
`selection_hashCode_perm_invariant`. -/
theorem selection_hashCode_perm_invariant_witness :
    (LogicalSelection.mk (baseLogicalPlan.mk 1 5 3 ([] : List Unit))
        [Expression.mk [9, 1], Expression.mk [2, 7, 7]]).HashCode
      = (LogicalSelection.mk (baseLogicalPlan.mk 2 5 3 ([] : List Unit))
        [Expression.mk [2, 7, 7], Expression.mk [9, 1]]).HashCode :=
  selection_hashCode_perm_invariant _ _ rfl rfl (List.Perm.swap _ _ _)

/-- C2: the exact layout of a Selection fingerprint. Whenever `s` is a
rearrangement of the condition fingerprints (a permutation, so duplicates are
kept) that is non-decreasing in lexicographic byte order, the fingerprint is
`u32(typeTag) ++ u32(locationTag) ++ u32(count) ++` the length-prefixed blocks
of `s` in order, and such an `s` exists for every node. In the scenario of
location tag 3 and two conditions with fingerprints `B1 < B2`, both input
orders give `u32(typeTag) ++ u32(3) ++ u32(2) ++ u32(len B1) ++ B1 ++
u32(len B2) ++ B2`. -/
theorem selection_hashCode_layout {Plan : Type} :
    (∀ (p : LogicalSelection Plan) (s : List Bytes),
      s.Perm (p.Conditions.map (fun expr => expr.HashCode)) → s.Sorted lexLE →
      p.HashCode = u32be p.tpID ++ u32be p.blockOffset
        ++ u32be (p.Conditions.length : Int) ++ framed s) ∧
    (∀ (p : LogicalSelection Plan), ∃ s : List Bytes,
      s.Perm (p.Conditions.map (fun expr => expr.HashCode)) ∧ s.Sorted lexLE) ∧
    (∀ (b : baseLogicalPlan Plan) (c1 c2 : Expression),
      b.blockOffset = 3 → List.Lex (· < ·) c1.HashCode c2.HashCode →
      ∀ conds, conds = [c1, c2] ∨ conds = [c2, c1] →
      (LogicalSelection.mk b conds).HashCode
        = u32be b.tpID ++ u32be 3 ++ u32be 2
          ++ u32be (c1.HashCode.length : Int) ++ c1.HashCode
          ++ u32be (c2.HashCode.length : Int) ++ c2.HashCode) := by
  have main : ∀ (p : LogicalSelection Plan) (s : List Bytes),
      s.Perm (p.Conditions.map (fun expr => expr.HashCode)) → s.Sorted lexLE →
      p.HashCode = u32be p.tpID ++ u32be p.blockOffset
        ++ u32be (p.Conditions.length : Int) ++ framed s := by
    intro p s hp hs
    rw [LogicalSelection_hashCode_eq, SortFunc_eq_of_sorted_perm hp hs]
    simp only [List.append_assoc]
  refine ⟨main, fun p => ⟨_, SortFunc_perm _, SortFunc_sorted _⟩, ?_⟩
  intro b c1 c2 hoff hlt conds hconds
  have hs : [c1.HashCode, c2.HashCode].Sorted lexLE := by
    simp [List.Sorted, lexLE, hlt]
  have hp : [c1.HashCode, c2.HashCode].Perm (conds.map (fun expr => expr.HashCode)) := by
    rcases hconds with h | h
    · subst h; exact List.Perm.refl _
    · subst h; exact List.Perm.swap _ _ _
  have hlen : conds.length = 2 := by
    rcases hconds with h | h <;> subst h <;> rfl
  have := main (LogicalSelection.mk b conds) _ hp hs
  rw [this]
  simp only [hoff, hlen, framed, lengthPrefixed, List.append_assoc, List.append_nil,
    Nat.cast_ofNat]

/-- The scenario of `selection_hashCode_layout` at type tag 5, location tag 3
and fingerprints `[2, 7, 7] < [9, 1]`, for the input order `[c2, c1]`. -/
theorem selection_hashCode_layout_witness :
    [([2, 7, 7] : Bytes), [9, 1]].Perm
        ((LogicalSelection.mk (baseLogicalPlan.mk 1 5 3 ([] : List Unit))
          [Expression.mk [9, 1], Expression.mk [2, 7, 7]]).Conditions.map
            (fun expr => expr.HashCode)) ∧
      [([2, 7, 7] : Bytes), [9, 1]].Sorted lexLE ∧
      (LogicalSelection.mk (baseLogicalPlan.mk 1 5 3 ([] : List Unit))
        [Expression.mk [9, 1], Expression.mk [2, 7, 7]]).HashCode
      = [0, 0, 0, 5, 0, 0, 0, 3, 0, 0, 0, 2, 0, 0, 0, 3, 2, 7, 7, 0, 0, 0, 2, 9, 1] :=
  ⟨List.Perm.swap _ _ _, by decide,
    (@selection_hashCode_layout Unit).1
      (LogicalSelection.mk (baseLogicalPlan.mk 1 5 3 [])
        [Expression.mk [9, 1], Expression.mk [2, 7, 7]])
      [[2, 7, 7], [9, 1]] (List.Perm.swap _ _ _) (by decide)⟩


/-! ## Projection: order and framing -/

theorem u32be_zero : u32be 0 = List.replicate 4 0 := rfl

theorem u32be_of_emod_eq_zero {v : Int} (h : v % 2 ^ 32 = 0) :
    u32be v = List.replicate 4 0 := by
  rw [← u32be_zero]
  exact (u32be_eq_iff v 0).mpr (by simpa using h)

/-- A fingerprint of `n` zero bytes, `n` a multiple of `2 ^ 32`, commutes with
the empty fingerprint inside a Projection: both length fields are four zero
bytes, and what remains on either side is a run of zero bytes. -/
theorem projection_zero_run_swap {Plan : Type} (b : baseLogicalPlan Plan) (n : Nat)
    (h : (n : Int) % 2 ^ 32 = 0) :
    (LogicalProjection.mk b [Expression.mk [], Expression.mk (List.replicate n 0)]).HashCode
      = (LogicalProjection.mk b
          [Expression.mk (List.replicate n 0), Expression.mk []]).HashCode := by
  have hn : u32be ((List.replicate n (0 : Byte)).length : Int) = List.replicate 4 0 := by
    rw [List.length_replicate]
    exact u32be_of_emod_eq_zero h
  have h0 : u32be (([] : Bytes).length : Int) = List.replicate 4 0 := rfl
  have key : framed [[], List.replicate n (0 : Byte)] = framed [List.replicate n 0, []] := by
    simp only [framed, lengthPrefixed, hn, h0, List.append_nil, List.append_assoc,
      List.append_replicate_replicate]
    rw [Nat.add_right_comm 4 n 4, Nat.add_assoc 4 4 n]
  rw [LogicalProjection_hashCode_eq, LogicalProjection_hashCode_eq]
  simp only [List.map_cons, List.map_nil, List.length_cons, List.length_nil, key]

/-- C3, counterexample: a Projection over an expression with the empty
fingerprint and an expression whose fingerprint is `2 ^ 32` zero bytes. The
two fingerprints differ, the length of the second is truncated to `0` by
`uint32`, and swapping the two expressions leaves the Projection fingerprint
unchanged. -/
theorem projection_swap_collision :
    (Expression.mk []).HashCode ≠ (Expression.mk (List.replicate (2 ^ 32) 0)).HashCode ∧
    (LogicalProjection.mk (baseLogicalPlan.mk 1 3 0 ([] : List Unit))
        [Expression.mk [], Expression.mk (List.replicate (2 ^ 32) 0)]).HashCode
      = (LogicalProjection.mk (baseLogicalPlan.mk 1 3 0 ([] : List Unit))
        [Expression.mk (List.replicate (2 ^ 32) 0), Expression.mk []]).HashCode := by
  constructor
  · intro h
    have h2 := congrArg List.length h
    rw [List.length_replicate] at h2
    exact absurd h2 (by norm_num)
  · exact projection_zero_run_swap _ (2 ^ 32) (by norm_num)

/-- C3, amended: `LogicalProjection.HashCode` is order-sensitive for
expressions whose fingerprints differ and have lengths that are equal or
differ modulo `2 ^ 32` (so in particular when both lengths fit in 32 bits):
then `Projection[e1, e2]` and `Projection[e2, e1]` have different
fingerprints, for every type tag and location tag. -/
theorem projection_hashCode_order_sensitive {Plan : Type} (b : baseLogicalPlan Plan)
    (e1 e2 : Expression) (hne : e1.HashCode ≠ e2.HashCode)
    (hlen : e1.HashCode.length = e2.HashCode.length ∨
      (e1.HashCode.length : Int) % 2 ^ 32 ≠ (e2.HashCode.length : Int) % 2 ^ 32) :
    (LogicalProjection.mk b [e1, e2]).HashCode
      ≠ (LogicalProjection.mk b [e2, e1]).HashCode := by
  intro h
  rw [LogicalProjection_hashCode_eq, LogicalProjection_hashCode_eq] at h
  simp only [List.map_cons, List.map_nil, framed, lengthPrefixed, List.length_cons,
    List.length_nil, List.append_assoc, List.append_cancel_left_eq] at h
  obtain ⟨h1, h2⟩ := List.append_inj h (by simp [u32be_length])
  have hmod := (u32be_eq_iff _ _).mp h1
  have hl : e1.HashCode.length = e2.HashCode.length := by
    rcases hlen with hl | hl
    · exact hl
    · exact absurd hmod hl
  exact hne (List.append_inj h2 hl).1

/-- Order-sensitivity at type tag 3 and location tag 0 for the fingerprints
`[1]` and `[2, 2]`, an instance of `projection_hashCode_order_sensitive`. -/
theorem projection_hashCode_order_sensitive_witness :
    (LogicalProjection.mk (baseLogicalPlan.mk 1 3 0 ([] : List Unit))
        [Expression.mk [1], Expression.mk [2, 2]]).HashCode
      ≠ (LogicalProjection.mk (baseLogicalPlan.mk 1 3 0 ([] : List Unit))
        [Expression.mk [2, 2], Expression.mk [1]]).HashCode :=
  projection_hashCode_order_sensitive _ (Expression.mk [1]) (Expression.mk [2, 2])
    (by decide) (Or.inr (by decide))

/-- C4: length framing makes `LogicalProjection.HashCode` injective. For two
Projection nodes whose type tag, location tag, expression count and
expression-fingerprint lengths all fit in 32 bits, equal fingerprints give
equal type tags, equal location tags and equal lists of expression
fingerprints (same length, equal element by element, in order). -/
theorem projection_hashCode_injective {Plan : Type} (p q : LogicalProjection Plan)
    (hp : fits32 p.tpID ∧ fits32 p.blockOffset ∧ fits32 (p.Exprs.length : Int) ∧
      ∀ e ∈ p.Exprs, fits32 (e.HashCode.length : Int))
    (hq : fits32 q.tpID ∧ fits32 q.blockOffset ∧ fits32 (q.Exprs.length : Int) ∧
      ∀ e ∈ q.Exprs, fits32 (e.HashCode.length : Int))
    (h : p.HashCode = q.HashCode) :
    p.tpID = q.tpID ∧ p.blockOffset = q.blockOffset ∧
      p.Exprs.map (fun expr => expr.HashCode) = q.Exprs.map (fun expr => expr.HashCode) := by
  obtain ⟨hp1, hp2, _, hp4⟩ := hp
  obtain ⟨hq1, hq2, _, hq4⟩ := hq
  rw [LogicalProjection_hashCode_eq, LogicalProjection_hashCode_eq] at h
  obtain ⟨h1, h⟩ := List.append_inj h (by simp [u32be_length])
  obtain ⟨h2, h⟩ := List.append_inj h (by simp [u32be_length])
  obtain ⟨_, h⟩ := List.append_inj h (by simp [u32be_length])
  refine ⟨u32be_inj_of_fits32 hp1 hq1 h1, u32be_inj_of_fits32 hp2 hq2 h2, ?_⟩
  apply framed_injective _ _ _ _ h
  · intro x hx
    obtain ⟨e, he, rfl⟩ := List.mem_map.mp hx
    exact hp4 e he
  · intro x hx
    obtain ⟨e, he, rfl⟩ := List.mem_map.mp hx
    exact hq4 e he

/-- A Projection compared with itself, an instance of
`projection_hashCode_injective` with every hypothesis discharged. -/
theorem projection_hashCode_injective_witness :
    (LogicalProjection.mk (baseLogicalPlan.mk 1 3 0 ([] : List Unit))
        [Expression.mk [1], Expression.mk [2, 2]]).Exprs.map (fun expr => expr.HashCode)
      = [[1], [2, 2]] :=
  (projection_hashCode_injective
    (LogicalProjection.mk (baseLogicalPlan.mk 1 3 0 ([] : List Unit))
        [Expression.mk [1], Expression.mk [2, 2]])
    (LogicalProjection.mk (baseLogicalPlan.mk 8 3 0 ([] : List Unit))
        [Expression.mk [1], Expression.mk [2, 2]])
    (by decide) (by decide) (by decide)).2.2


/-! ## Selection: equal fingerprints, duplicates -/

/-- C5: equal Selection fingerprints certify equivalence up to reordering
of the conjuncts. For two Selection nodes whose type tag, location tag,
condition count and condition-fingerprint lengths all fit in 32 bits, equal
fingerprints give equal location tags and lists of condition fingerprints that
are permutations of each other, so every fingerprint occurs the same number
of times in both. -/
theorem selection_hashCode_eq_imp_perm {Plan : Type} (p q : LogicalSelection Plan)
    (hp : fits32 p.tpID ∧ fits32 p.blockOffset ∧ fits32 (p.Conditions.length : Int) ∧
      ∀ e ∈ p.Conditions, fits32 (e.HashCode.length : Int))
    (hq : fits32 q.tpID ∧ fits32 q.blockOffset ∧ fits32 (q.Conditions.length : Int) ∧
      ∀ e ∈ q.Conditions, fits32 (e.HashCode.length : Int))
    (h : p.HashCode = q.HashCode) :
    p.blockOffset = q.blockOffset ∧
      (p.Conditions.map (fun expr => expr.HashCode)).Perm
        (q.Conditions.map (fun expr => expr.HashCode)) ∧
      ∀ c : Bytes, (p.Conditions.map (fun expr => expr.HashCode)).countP (fun x => x = c)
        = (q.Conditions.map (fun expr => expr.HashCode)).countP (fun x => x = c) := by
  obtain ⟨_, hp2, _, hp4⟩ := hp
  obtain ⟨_, hq2, _, hq4⟩ := hq
  rw [LogicalSelection_hashCode_eq, LogicalSelection_hashCode_eq] at h
  obtain ⟨_, h⟩ := List.append_inj h (by simp [u32be_length])
  obtain ⟨h2, h⟩ := List.append_inj h (by simp [u32be_length])
  obtain ⟨_, h⟩ := List.append_inj h (by simp [u32be_length])
  have hs := framed_injective _ _ (by
      intro x hx
      obtain ⟨e, he, rfl⟩ := List.mem_map.mp ((SortFunc_perm _).mem_iff.mp hx)
      exact hp4 e he) (by
      intro x hx
      obtain ⟨e, he, rfl⟩ := List.mem_map.mp ((SortFunc_perm _).mem_iff.mp hx)
      exact hq4 e he) h
  have hperm : (p.Conditions.map (fun expr => expr.HashCode)).Perm
      (q.Conditions.map (fun expr => expr.HashCode)) :=
    (SortFunc_perm _).symm.trans (hs ▸ SortFunc_perm _)
  exact ⟨u32be_inj_of_fits32 hp2 hq2 h2, hperm, fun c => hperm.countP_eq _⟩

/-- Two Selections over the same conditions in opposite orders, an instance of
`selection_hashCode_eq_imp_perm` with every hypothesis discharged. -/
theorem selection_hashCode_eq_imp_perm_witness :
    ([([9, 1] : Bytes), [2, 7, 7]]).Perm [[2, 7, 7], [9, 1]] :=
  (selection_hashCode_eq_imp_perm
    (LogicalSelection.mk (baseLogicalPlan.mk 1 5 3 ([] : List Unit))
        [Expression.mk [9, 1], Expression.mk [2, 7, 7]])
    (LogicalSelection.mk (baseLogicalPlan.mk 2 5 3 ([] : List Unit))
        [Expression.mk [2, 7, 7], Expression.mk [9, 1]])
    (by decide) (by decide) (by decide)).2.1

/-- C6: `LogicalSelection.HashCode` never collapses duplicate conditions.
For every type tag, location tag and condition `c`, the fingerprints of
`Selection[c, c]` and `Selection[c]` differ. -/
theorem selection_hashCode_no_dedup {Plan : Type} (b : baseLogicalPlan Plan)
    (c : Expression) :
    (LogicalSelection.mk b [c, c]).HashCode ≠ (LogicalSelection.mk b [c]).HashCode := by
  intro h
  have hl := congrArg List.length h
  rw [LogicalSelection_hashCode_eq, LogicalSelection_hashCode_eq] at hl
  have e2 : SortFunc [c.HashCode, c.HashCode] (fun i j => bytesCompare i j)
      = [c.HashCode, c.HashCode] :=
    SortFunc_eq_of_sorted_perm (List.Perm.refl _) (by simp [List.Sorted, lexLE])
  have e1 : SortFunc [c.HashCode] (fun i j => bytesCompare i j) = [c.HashCode] := rfl
  simp only [List.map_cons, List.map_nil, e1, e2, framed, lengthPrefixed, List.length_append,
    u32be_length, List.length_nil] at hl
  omega


/-! ## The leading bytes of a fingerprint -/

theorem uint32_eq_iff (a b : Int) : uint32 a = uint32 b ↔ a % 2 ^ 32 = b % 2 ^ 32 := by
  have ha : 0 ≤ a % 2 ^ 32 := Int.emod_nonneg _ (by norm_num)
  have hb : 0 ≤ b % 2 ^ 32 := Int.emod_nonneg _ (by norm_num)
  simp only [uint32]
  norm_num
  omega

theorem u32be_eq_iff_uint32 (a b : Int) : u32be a = u32be b ↔ uint32 a = uint32 b := by
  rw [u32be_eq_iff, uint32_eq_iff]

/-- Every rule other than the default one starts with the type tag and the
location tag, four bytes each. -/
theorem specialized_header (n : LogicalPlan) (h : n.specialized = true) :
    n.HashCode.take 4 = u32be n.toBase.tpID ∧
      (n.HashCode.drop 4).take 4 = u32be n.toBase.blockOffset := by
  cases n with
  | base p => simp [LogicalPlan.specialized] at h
  | projection p =>
    simp only [LogicalPlan.HashCode, LogicalPlan.toBase, LogicalProjection_hashCode_eq]
    rw [List.take_left' (u32be_length _), List.drop_left' (u32be_length _),
      List.take_left' (u32be_length _)]
    exact ⟨rfl, rfl⟩
  | tableDual p =>
    simp only [LogicalPlan.HashCode, LogicalPlan.toBase, LogicalTableDual_hashCode_eq]
    rw [List.take_left' (u32be_length _), List.drop_left' (u32be_length _),
      List.take_left' (u32be_length _)]
    exact ⟨rfl, rfl⟩
  | selection p =>
    simp only [LogicalPlan.HashCode, LogicalPlan.toBase, LogicalSelection_hashCode_eq]
    rw [List.take_left' (u32be_length _), List.drop_left' (u32be_length _),
      List.take_left' (u32be_length _)]
    exact ⟨rfl, rfl⟩
  | limit p =>
    simp only [LogicalPlan.HashCode, LogicalPlan.toBase, LogicalLimit_hashCode_eq,
      u32be_eq_uint32]
    exact ⟨rfl, rfl⟩

/-- C7: type discrimination between the specialized kinds. A Selection
without conditions and a Projection without expressions at the same location
tag, with distinct type tags that fit in 32 bits, have different fingerprints;
and any two fingerprints of the Projection, TableDual, Selection or Limit rules
whose type tags differ as 32-bit values differ in their first four bytes. -/
theorem hashCode_type_discrimination :
    (∀ (bs bp : baseLogicalPlan LogicalPlan), bs.blockOffset = bp.blockOffset →
      fits32 bs.tpID → fits32 bp.tpID → bs.tpID ≠ bp.tpID →
      (LogicalSelection.mk bs []).HashCode ≠ (LogicalProjection.mk bp []).HashCode) ∧
    (∀ a b : LogicalPlan, a.specialized = true → b.specialized = true →
      uint32 a.toBase.tpID ≠ uint32 b.toBase.tpID →
      a.HashCode.take 4 ≠ b.HashCode.take 4) := by
  have general : ∀ a b : LogicalPlan, a.specialized = true → b.specialized = true →
      uint32 a.toBase.tpID ≠ uint32 b.toBase.tpID →
      a.HashCode.take 4 ≠ b.HashCode.take 4 := by
    intro a b ha hb hne h
    rw [(specialized_header a ha).1, (specialized_header b hb).1] at h
    exact hne ((u32be_eq_iff_uint32 _ _).mp h)
  refine ⟨?_, general⟩
  intro bs bp _ hs hp hne h
  refine general (.selection (LogicalSelection.mk bs [])) (.projection (LogicalProjection.mk bp []))
    rfl rfl ?_ (congrArg (List.take 4) h)
  intro hu
  exact hne (u32be_inj_of_fits32 hs hp ((u32be_eq_iff_uint32 _ _).mpr hu))

/-- An empty Selection with type tag 5 against an empty Projection with type
tag 3 at location tag 2, an instance of `hashCode_type_discrimination`. -/
theorem hashCode_type_discrimination_witness :
    (LogicalSelection.mk (baseLogicalPlan.mk 1 5 2 ([] : List LogicalPlan)) []).HashCode
      ≠ (LogicalProjection.mk (baseLogicalPlan.mk 1 3 2 ([] : List LogicalPlan)) []).HashCode :=
  hashCode_type_discrimination.1 (baseLogicalPlan.mk 1 5 2 []) (baseLogicalPlan.mk 1 3 2 [])
    rfl (by decide) (by decide) (by decide)

/-- C8, counterexample: a node under the default rule with plan ID 7, type tag
1 and location tag 2 has the fingerprint `[0, 0, 0, 7]`: its first four bytes
encode the plan ID and not the type tag, and there are no further bytes to
hold the location tag. -/
theorem default_rule_header_counterexample :
    (LogicalPlan.base (baseLogicalPlan.mk 7 1 2 [])).HashCode = [0, 0, 0, 7] ∧
    (LogicalPlan.base (baseLogicalPlan.mk 7 1 2 [])).HashCode.take 4
      ≠ u32be (LogicalPlan.base (baseLogicalPlan.mk 7 1 2 [])).toBase.tpID ∧
    ((LogicalPlan.base (baseLogicalPlan.mk 7 1 2 [])).HashCode.drop 4).take 4
      ≠ u32be (LogicalPlan.base (baseLogicalPlan.mk 7 1 2 [])).toBase.blockOffset := by
  decide

/-- C8, amended: for every Projection, TableDual, Selection and Limit node
the first four bytes of the fingerprint are the big-endian 32-bit encoding of
the type tag and the next four bytes that of the location tag; for a node
under the default rule the fingerprint is the big-endian 32-bit encoding of
its plan ID and nothing else. -/
theorem hashCode_header (n : LogicalPlan) :
    (n.specialized = true →
      n.HashCode.take 4 = u32be n.toBase.tpID ∧
        (n.HashCode.drop 4).take 4 = u32be n.toBase.blockOffset) ∧
    (n.specialized = false → n.HashCode = u32be n.toBase.id) := by
  refine ⟨specialized_header n, ?_⟩
  intro h
  cases n with
  | base p => exact baseLogicalPlan_hashCode_eq p
  | projection p => simp [LogicalPlan.specialized] at h
  | tableDual p => simp [LogicalPlan.specialized] at h
  | selection p => simp [LogicalPlan.specialized] at h
  | limit p => simp [LogicalPlan.specialized] at h

/-- The header of a Limit with type tag 258 and location tag 7 and the
fingerprint of a default-rule node with plan ID 7, instances of
`hashCode_header`. -/
theorem hashCode_header_witness :
    ((LogicalPlan.limit (LogicalLimit.mk (baseLogicalPlan.mk 1 258 7 []) 10 20)).HashCode.take 4
        = [0, 0, 1, 2] ∧
      ((LogicalPlan.limit (LogicalLimit.mk (baseLogicalPlan.mk 1 258 7 []) 10 20)).HashCode.drop
        4).take 4 = [0, 0, 0, 7]) ∧
    (LogicalPlan.base (baseLogicalPlan.mk 7 1 2 [])).HashCode = [0, 0, 0, 7] :=
  ⟨(hashCode_header (LogicalPlan.limit (LogicalLimit.mk (baseLogicalPlan.mk 1 258 7 []) 10 20))).1
      rfl,
    (hashCode_header (LogicalPlan.base (baseLogicalPlan.mk 7 1 2 []))).2 rfl⟩

/-! ## TableDual and Limit -/

/-- C9: for two TableDual nodes with the same type tag and the same location
tag and row counts in `[0, 2 ^ 32)`, the fingerprints are equal if and only if
the row counts are equal. -/
theorem tableDual_hashCode_eq_iff {Plan : Type} (p q : LogicalTableDual Plan)
    (htp : p.tpID = q.tpID) (hoff : p.blockOffset = q.blockOffset)
    (hp : fits32 p.RowCount) (hq : fits32 q.RowCount) :
    p.HashCode = q.HashCode ↔ p.RowCount = q.RowCount := by
  rw [LogicalTableDual_hashCode_eq, LogicalTableDual_hashCode_eq, htp, hoff]
  constructor
  · intro h
    exact u32be_inj_of_fits32 hp hq (List.append_cancel_left (List.append_cancel_left h))
  · intro h
    rw [h]

/-- Row count 0 against row count 1 at type tag 4 and location tag 2, an
instance of `tableDual_hashCode_eq_iff`. -/
theorem tableDual_hashCode_eq_iff_witness :
    (LogicalTableDual.mk (baseLogicalPlan.mk 1 4 2 ([] : List Unit)) 0).HashCode
      ≠ (LogicalTableDual.mk (baseLogicalPlan.mk 2 4 2 ([] : List Unit)) 1).HashCode :=
  fun h => absurd
    ((tableDual_hashCode_eq_iff
      (LogicalTableDual.mk (baseLogicalPlan.mk 1 4 2 ([] : List Unit)) 0)
      (LogicalTableDual.mk (baseLogicalPlan.mk 2 4 2 ([] : List Unit)) 1)
      rfl rfl (by decide) (by decide)).mp h) (by decide)

/-- C10: for every Limit node, whatever its type tag, location tag, offset
and count, `LogicalLimit.HashCode` returns exactly 24 bytes. -/
theorem limit_hashCode_length {Plan : Type} (p : LogicalLimit Plan) :
    p.HashCode.length = 24 := by
  simp only [LogicalLimit.HashCode, PutUint32, PutUint64, List.length_set,
    List.length_replicate]


/-! ## Limit: the fixed layout -/

theorem u32be_emod (v : Int) : u32be (v % 2 ^ 32) = u32be v :=
  (u32be_eq_iff _ _).mpr (Int.emod_emod_of_dvd v (dvd_refl _))

theorem u64be_eq_shift (v : Nat) :
    u64be v = [toByte (v >>> 56), toByte (v >>> 48), toByte (v >>> 40), toByte (v >>> 32),
      toByte (v >>> 24), toByte (v >>> 16), toByte (v >>> 8), toByte v] := by
  simp only [u64be, Nat.shiftRight_eq_div_pow, List.cons.injEq, toByte_eq_iff, and_true]
  refine ⟨?_, ?_, ?_, ?_, ?_, ?_, ?_, ?_⟩ <;> omega

theorem LogicalLimit_hashCode_layout_eq {Plan : Type} (p : LogicalLimit Plan) :
    p.HashCode = u32be p.tpID ++ (u32be p.blockOffset ++ (u64be p.Offset ++ u64be p.Count)) := by
  rw [LogicalLimit_hashCode_eq, u32be_eq_uint32, u32be_eq_uint32, u64be_eq_shift,
    u64be_eq_shift]
  rfl

/-- The four `Put` calls of `(*LogicalLimit).HashCode` overwrite every byte of a
24-byte buffer: the outcome does not depend on what the buffer held. -/
theorem limit_fill_any_buffer (b : Bytes) (hb : b.length = 24) (t l o c : Nat) :
    PutUint64 (PutUint64 (PutUint32 (PutUint32 b 0 t) 4 l) 8 o) 16 c
      = PutUint64 (PutUint64 (PutUint32 (PutUint32 (List.replicate 24 0) 0 t) 4 l) 8 o) 16 c := by
  iterate 24 (
    obtain _ | ⟨_, b⟩ := b
    · simp at hb)
  obtain _ | ⟨_, b⟩ := b
  · simp only [PutUint32, PutUint64, List.replicate, List.set_cons_zero, List.set_cons_succ,
      Nat.zero_add]
  · simp at hb


/-- C11: the fixed layout of a Limit fingerprint. For every Limit node the
fingerprint is `u32be(typeTag mod 2^32) ++ u32be(locationTag mod 2^32) ++
u64be(offset) ++ u64be(count)`: bytes 0-3 hold the type tag, bytes 4-7 the
location tag, bytes 8-15 the offset and bytes 16-23 the count, each
big-endian. No byte is left unwritten: started on any 24-byte buffer, the
four writes give the same 24 bytes. -/
theorem limit_hashCode_layout {Plan : Type} (p : LogicalLimit Plan) :
    p.HashCode = u32be (p.tpID % 2 ^ 32) ++ u32be (p.blockOffset % 2 ^ 32)
      ++ u64be p.Offset ++ u64be p.Count ∧
    p.HashCode.take 4 = u32be (p.tpID % 2 ^ 32) ∧
    (p.HashCode.drop 4).take 4 = u32be (p.blockOffset % 2 ^ 32) ∧
    (p.HashCode.drop 8).take 8 = u64be p.Offset ∧
    (p.HashCode.drop 16).take 8 = u64be p.Count ∧
    p.HashCode.drop 24 = [] ∧
    ∀ b : Bytes, b.length = 24 →
      PutUint64 (PutUint64 (PutUint32 (PutUint32 b 0 (uint32 p.tpID)) 4
        (uint32 p.blockOffset)) 8 p.Offset) 16 p.Count = p.HashCode := by
  have h := LogicalLimit_hashCode_layout_eq p
  have l4 : ∀ v : Int, (u32be v).length = 4 := u32be_length
  have l8 : ∀ v : Nat, (u64be v).length = 8 := fun _ => rfl
  refine ⟨?_, ?_, ?_, ?_, ?_, ?_, ?_⟩
  · rw [h, u32be_emod, u32be_emod]
    simp only [List.append_assoc]
  · rw [h, u32be_emod, List.take_left' (l4 _)]
  · rw [h, u32be_emod, List.drop_left' (l4 _), List.take_left' (l4 _)]
  · rw [h, ← List.append_assoc, List.drop_left' (by simp [l4]), List.take_left' (l8 _)]
  · rw [h, ← List.append_assoc, ← List.append_assoc, List.drop_left' (by simp [l4, l8]),
      List.take_of_length_le (by simp [l8])]
  · rw [List.drop_eq_nil_iff, h]
    simp [l4, l8]
  · intro b hb
    exact limit_fill_any_buffer b hb _ _ _ _

/-- The four writes of a Limit with type tag 258, location tag 7, offset
`2 ^ 64 - 1` and count 5, started on a buffer of 24 bytes `255`: an instance
of the last part of `limit_hashCode_layout`. -/
theorem limit_hashCode_layout_witness :
    PutUint64 (PutUint64 (PutUint32 (PutUint32 (List.replicate 24 255) 0 (uint32 258)) 4
        (uint32 7)) 8 (2 ^ 64 - 1)) 16 5
      = [0, 0, 1, 2, 0, 0, 0, 7, 255, 255, 255, 255, 255, 255, 255, 255,
         0, 0, 0, 0, 0, 0, 0, 5] :=
  (limit_hashCode_layout
    (LogicalLimit.mk (baseLogicalPlan.mk 1 258 7 ([] : List Unit)) (2 ^ 64 - 1) 5)).2.2.2.2.2.2
    (List.replicate 24 255) rfl

/-! ## The default rule and `encodeIntAsUint32` -/

/-- C12, counterexample: two plans with the distinct IDs `1` and
`4294967297 = 1 + 2 ^ 32`, both Go `int` values, receive the same default
fingerprint `[0, 0, 0, 1]`, because `encodeIntAsUint32` keeps the low 32 bits
of the ID only. -/
theorem default_rule_id_collision :
    (baseLogicalPlan.mk 1 9 0 ([] : List Unit)).id
      ≠ (baseLogicalPlan.mk 4294967297 9 0 ([] : List Unit)).id ∧
    (baseLogicalPlan.mk 1 9 0 ([] : List Unit)).HashCode
      = (baseLogicalPlan.mk 4294967297 9 0 ([] : List Unit)).HashCode ∧
    (baseLogicalPlan.mk 4294967297 9 0 ([] : List Unit)).HashCode = [0, 0, 0, 1] := by
  decide

/-- C12, amended: the default rule separates plan IDs that are different
modulo `2 ^ 32`. Two plan nodes have the same default fingerprint exactly when
their IDs agree in the low 32 bits; so two nodes whose IDs are different and
both lie in `[0, 2 ^ 32)`, or both lie in the 32-bit signed range
`[-2 ^ 31, 2 ^ 31)`, never have the same fingerprint. -/
theorem default_rule_id_unique {Plan : Type} :
    (∀ p q : baseLogicalPlan Plan,
      p.HashCode = q.HashCode ↔ p.id % 2 ^ 32 = q.id % 2 ^ 32) ∧
    (∀ p q : baseLogicalPlan Plan, fits32 p.id → fits32 q.id → p.id ≠ q.id →
      p.HashCode ≠ q.HashCode) ∧
    (∀ p q : baseLogicalPlan Plan, -2 ^ 31 ≤ p.id ∧ p.id < 2 ^ 31 →
      -2 ^ 31 ≤ q.id ∧ q.id < 2 ^ 31 → p.id ≠ q.id → p.HashCode ≠ q.HashCode) := by
  have main : ∀ p q : baseLogicalPlan Plan,
      p.HashCode = q.HashCode ↔ p.id % 2 ^ 32 = q.id % 2 ^ 32 := by
    intro p q
    rw [baseLogicalPlan_hashCode_eq, baseLogicalPlan_hashCode_eq, u32be_eq_iff]
  refine ⟨main, ?_, ?_⟩
  · intro p q hp hq hne h
    have h2 := (main p q).mp h
    obtain ⟨hp1, hp2⟩ := hp
    obtain ⟨hq1, hq2⟩ := hq
    omega
  · intro p q hp hq hne h
    have h2 := (main p q).mp h
    omega

/-- The plan IDs 1 and 2, and the plan IDs -1 and 1 of the 32-bit signed
range, instances of the second and third part of `default_rule_id_unique`. -/
theorem default_rule_id_unique_witness :
    (baseLogicalPlan.mk 1 9 0 ([] : List Unit)).HashCode
      ≠ (baseLogicalPlan.mk 2 9 0 ([] : List Unit)).HashCode ∧
    (baseLogicalPlan.mk (-1) 9 0 ([] : List Unit)).HashCode
      ≠ (baseLogicalPlan.mk 1 9 0 ([] : List Unit)).HashCode :=
  ⟨(@default_rule_id_unique Unit).2.1 (baseLogicalPlan.mk 1 9 0 []) (baseLogicalPlan.mk 2 9 0 [])
      (by decide) (by decide) (by decide),
    (@default_rule_id_unique Unit).2.2 (baseLogicalPlan.mk (-1) 9 0 [])
      (baseLogicalPlan.mk 1 9 0 []) (by decide) (by decide) (by decide)⟩

theorem bigEndianValue_u32be (v : Int) : (bigEndianValue (u32be v) : Int) = v % 2 ^ 32 := by
  have h0 : 0 ≤ v % 2 ^ 32 := Int.emod_nonneg _ (by norm_num)
  have h1 : v % 2 ^ 32 < 2 ^ 32 := Int.emod_lt_of_pos _ (by norm_num)
  obtain ⟨n, hn⟩ := Int.eq_ofNat_of_zero_le h0
  rw [hn] at h1 ⊢
  simp only [u32be, bigEndianValue, hn, Int.toNat_ofNat, List.foldl_cons, List.foldl_nil,
    toByte]
  omega

/-- C13: `encodeIntAsUint32(result, value)` returns `result` followed by
exactly four bytes. The bytes of `result` are an unchanged initial segment,
the output has length `len(result) + 4`, and the four appended bytes read as a
big-endian unsigned integer give `value mod 2^32`: `value` itself when
`0 ≤ value < 2^32`, and `value` and `value + 2^32` are encoded identically. -/
theorem encodeIntAsUint32_spec (result : Bytes) (value : Int) :
    (encodeIntAsUint32 result value).take result.length = result ∧
    (encodeIntAsUint32 result value).length = result.length + 4 ∧
    (bigEndianValue ((encodeIntAsUint32 result value).drop result.length) : Int)
      = value % 2 ^ 32 ∧
    (fits32 value →
      (bigEndianValue ((encodeIntAsUint32 result value).drop result.length) : Int) = value) ∧
    encodeIntAsUint32 result (value + 2 ^ 32) = encodeIntAsUint32 result value := by
  have hd : (encodeIntAsUint32 result value).drop result.length = u32be value := by
    rw [encodeIntAsUint32_eq, List.drop_left]
  refine ⟨?_, ?_, ?_, ?_, ?_⟩
  · rw [encodeIntAsUint32_eq, List.take_left]
  · rw [encodeIntAsUint32_eq, List.length_append, u32be_length]
  · rw [hd, bigEndianValue_u32be]
  · intro hv
    rw [hd, bigEndianValue_u32be]
    exact Int.emod_eq_of_lt hv.1 hv.2
  · rw [encodeIntAsUint32_eq, encodeIntAsUint32_eq]
    congr 1
    exact (u32be_eq_iff _ _).mpr (by simp)

/-- The value `258` appended to `[9, 9]`: the four new bytes are `0, 0, 1, 2`
and read back as `258`, an instance of `encodeIntAsUint32_spec`. -/
theorem encodeIntAsUint32_spec_witness :
    fits32 258 ∧ encodeIntAsUint32 [9, 9] 258 = [9, 9, 0, 0, 1, 2] ∧
      (bigEndianValue ((encodeIntAsUint32 [9, 9] 258).drop 2) : Int) = 258 :=
  ⟨by decide, by decide, (encodeIntAsUint32_spec [9, 9] 258).2.2.2.1 (by decide)⟩


/-! ## Selection: independence of the sorting routine -/

theorem LogicalSelection_hashCodeWith_eq {Plan : Type} (sort : List Bytes → List Bytes)
    (p : LogicalSelection Plan) :
    p.HashCodeWith sort = u32be p.tpID ++ (u32be p.blockOffset
      ++ (u32be (p.Conditions.length : Int)
      ++ framed (sort (p.Conditions.map (fun expr => expr.HashCode))))) := by
  simp only [LogicalSelection.HashCodeWith]
  rw [foldl_encode_eq_framed]
  simp only [encodeIntAsUint32_eq, List.nil_append, List.append_assoc]

theorem stableSort_perm (x : List Bytes) : (stableSort x).Perm x :=
  List.mergeSort_perm x _

theorem stableSort_sorted (x : List Bytes) : (stableSort x).Sorted lexLE := by
  have h := List.sorted_mergeSort
    (fun (a b c : Bytes) (hab : decide (bytesCompare a b ≤ 0) = true)
        (hbc : decide (bytesCompare b c ≤ 0) = true) =>
      decide_eq_true ((cmpLE_bytesCompare_iff a c).mpr
        (lexLE_trans ((cmpLE_bytesCompare_iff a b).mp (of_decide_eq_true hab))
          ((cmpLE_bytesCompare_iff b c).mp (of_decide_eq_true hbc)))))
    (fun (a b : Bytes) => by
      rcases lexLE_total a b with h | h
      · simp
        exact Or.inl ((cmpLE_bytesCompare_iff a b).mpr h)
      · simp
        exact Or.inr ((cmpLE_bytesCompare_iff b a).mpr h))
    x
  exact List.Pairwise.imp
    (fun {a b} hab => (cmpLE_bytesCompare_iff a b).mp (of_decide_eq_true hab)) h


/-- C14: the Selection fingerprint does not depend on the stability of the
sort. Two rearrangements of a list of condition fingerprints that are
permutations of it and non-decreasing in lexicographic byte order are the same
list; hence the fingerprint computed with any routine that returns a sorted
permutation, which is all that `slices.SortFunc` promises, is the fingerprint
of `LogicalSelection.HashCode`, and so is the one computed with a stable sort,
in the code and as the specification words the rule. -/
theorem selection_hashCode_sort_independent {Plan : Type} :
    (∀ cs s₁ s₂ : List Bytes, s₁.Perm cs → s₂.Perm cs →
      s₁.Sorted lexLE → s₂.Sorted lexLE → s₁ = s₂) ∧
    (∀ sort : List Bytes → List Bytes,
      (∀ x, (sort x).Perm x ∧ (sort x).Sorted (cmpLE (fun i j => bytesCompare i j))) →
      ∀ p : LogicalSelection Plan, p.HashCodeWith sort = p.HashCode) ∧
    (∀ p : LogicalSelection Plan,
      p.HashCodeWith stableSort = p.HashCode ∧ p.HashCodeSpec = p.HashCode) := by
  have any : ∀ sort : List Bytes → List Bytes,
      (∀ x, (sort x).Perm x ∧ (sort x).Sorted lexLE) →
      ∀ p : LogicalSelection Plan, p.HashCodeWith sort = p.HashCode := by
    intro sort hsort p
    rw [LogicalSelection_hashCodeWith_eq, LogicalSelection_hashCode_eq,
      SortFunc_eq_of_sorted_perm (hsort _).1 (hsort _).2]
  refine ⟨?_, ?_, ?_⟩
  · intro cs s₁ s₂ h₁ h₂ hs₁ hs₂
    exact sorted_perm_unique (h₁.trans h₂.symm) hs₁ hs₂
  · intro sort hsort
    exact any sort (fun x => ⟨(hsort x).1, cmpLE_bytesCompare_eq ▸ (hsort x).2⟩)
  · intro p
    have h := any stableSort (fun x => ⟨stableSort_perm x, stableSort_sorted x⟩) p
    refine ⟨h, ?_⟩
    rw [← h, LogicalSelection_hashCodeWith_eq]
    simp only [LogicalSelection.HashCodeSpec, List.append_assoc]

/-- The fingerprints `[9, 1]`, `[2, 7, 7]`, `[2, 7, 7]`, one of them repeated:
what the sort returns is the one sorted arrangement, an instance of the first
part of `selection_hashCode_sort_independent`. -/
theorem selection_hashCode_sort_independent_witness :
    SortFunc [([9, 1] : Bytes), [2, 7, 7], [2, 7, 7]] (fun i j => bytesCompare i j)
      = [[2, 7, 7], [2, 7, 7], [9, 1]] :=
  (@selection_hashCode_sort_independent Unit).1 [[9, 1], [2, 7, 7], [2, 7, 7]] _ _
    (SortFunc_perm _) (by decide) (SortFunc_sorted _) (by decide)

/-! ## Default rule against the specialized rules -/

/-- C15: a default-rule fingerprint never equals a specialized-rule
fingerprint. `baseLogicalPlan.HashCode` returns exactly 4 bytes, whereas
`LogicalProjection.HashCode` and `LogicalSelection.HashCode` return at least
12 bytes, `LogicalTableDual.HashCode` exactly 12 and `LogicalLimit.HashCode`
exactly 24, for all inputs. -/
theorem default_vs_specialized {Plan : Type} :
    (∀ p : baseLogicalPlan Plan, p.HashCode.length = 4) ∧
    (∀ p : LogicalProjection Plan, 12 ≤ p.HashCode.length) ∧
    (∀ p : LogicalSelection Plan, 12 ≤ p.HashCode.length) ∧
    (∀ p : LogicalTableDual Plan, p.HashCode.length = 12) ∧
    (∀ p : LogicalLimit Plan, p.HashCode.length = 24) ∧
    (∀ a b : LogicalPlan, a.specialized = false → b.specialized = true →
      a.HashCode ≠ b.HashCode) := by
  have hb : ∀ {P : Type} (p : baseLogicalPlan P), p.HashCode.length = 4 := by
    intro P p
    rw [baseLogicalPlan_hashCode_eq, u32be_length]
  have hp : ∀ {P : Type} (p : LogicalProjection P), 12 ≤ p.HashCode.length := by
    intro P p
    rw [LogicalProjection_hashCode_eq]
    simp only [List.length_append, u32be_length]
    omega
  have hs : ∀ {P : Type} (p : LogicalSelection P), 12 ≤ p.HashCode.length := by
    intro P p
    rw [LogicalSelection_hashCode_eq]
    simp only [List.length_append, u32be_length]
    omega
  have ht : ∀ {P : Type} (p : LogicalTableDual P), p.HashCode.length = 12 := by
    intro P p
    rw [LogicalTableDual_hashCode_eq]
    simp only [List.length_append, u32be_length]
  have hl : ∀ {P : Type} (p : LogicalLimit P), p.HashCode.length = 24 := by
    intro P p
    rw [LogicalLimit_hashCode_eq]
    rfl
  refine ⟨hb, hp, hs, ht, hl, ?_⟩
  intro a b ha hb' h
  have hlen := congrArg List.length h
  cases a with
  | base pa =>
    have h4 : (LogicalPlan.base pa).HashCode.length = 4 := hb pa
    cases b with
    | base pb => simp [LogicalPlan.specialized] at hb'
    | projection pb =>
      have := hp pb
      simp only [LogicalPlan.HashCode] at hlen h4
      omega
    | tableDual pb =>
      have := ht pb
      simp only [LogicalPlan.HashCode] at hlen h4
      omega
    | selection pb =>
      have := hs pb
      simp only [LogicalPlan.HashCode] at hlen h4
      omega
    | limit pb =>
      have := hl pb
      simp only [LogicalPlan.HashCode] at hlen h4
      omega
  | projection pa => simp [LogicalPlan.specialized] at ha
  | tableDual pa => simp [LogicalPlan.specialized] at ha
  | selection pa => simp [LogicalPlan.specialized] at ha
  | limit pa => simp [LogicalPlan.specialized] at ha

/-- A default-rule node with plan ID 3 against a TableDual with type tag 0,
location tag 0 and row count 3, an instance of `default_vs_specialized`. -/
theorem default_vs_specialized_witness :
    (LogicalPlan.base (baseLogicalPlan.mk 3 0 0 [])).HashCode
      ≠ (LogicalPlan.tableDual (LogicalTableDual.mk (baseLogicalPlan.mk 3 0 0 []) 3)).HashCode :=
  (@default_vs_specialized Unit).2.2.2.2.2 _ _ rfl rfl


/-! ## Limit: offset and count -/

theorem u64be_inj {a b : Nat} (ha : a < 2 ^ 64) (hb : b < 2 ^ 64)
    (h : u64be a = u64be b) : a = b := by
  simp only [u64be, List.cons.injEq, toByte_eq_iff, and_true] at h
  omega

/-- C16: `LogicalLimit.HashCode` is injective in offset and count. For two
Limit nodes with the same type tag and location tag and 64-bit offsets and
counts, the fingerprints are equal if and only if the offsets are equal and the
counts are equal; in particular `Limit{offset=a,count=b}` and
`Limit{offset=b,count=a}` have different fingerprints whenever `a ≠ b`. -/
theorem limit_hashCode_injective {Plan : Type} :
    (∀ p q : LogicalLimit Plan, p.tpID = q.tpID → p.blockOffset = q.blockOffset →
      p.Offset < 2 ^ 64 → p.Count < 2 ^ 64 → q.Offset < 2 ^ 64 → q.Count < 2 ^ 64 →
      (p.HashCode = q.HashCode ↔ p.Offset = q.Offset ∧ p.Count = q.Count)) ∧
    (∀ (n : baseLogicalPlan Plan) (a b : Nat), a < 2 ^ 64 → b < 2 ^ 64 → a ≠ b →
      (LogicalLimit.mk n a b).HashCode ≠ (LogicalLimit.mk n b a).HashCode) := by
  have main : ∀ p q : LogicalLimit Plan, p.tpID = q.tpID → p.blockOffset = q.blockOffset →
      p.Offset < 2 ^ 64 → p.Count < 2 ^ 64 → q.Offset < 2 ^ 64 → q.Count < 2 ^ 64 →
      (p.HashCode = q.HashCode ↔ p.Offset = q.Offset ∧ p.Count = q.Count) := by
    intro p q htp hoff hpo hpc hqo hqc
    rw [LogicalLimit_hashCode_layout_eq, LogicalLimit_hashCode_layout_eq, htp, hoff]
    constructor
    · intro h
      have h2 := List.append_cancel_left (List.append_cancel_left h)
      obtain ⟨ho, hc⟩ := List.append_inj h2 rfl
      exact ⟨u64be_inj hpo hqo ho, u64be_inj hpc hqc hc⟩
    · rintro ⟨ho, hc⟩
      rw [ho, hc]
  refine ⟨main, ?_⟩
  intro n a b ha hb hne h
  exact hne ((main (LogicalLimit.mk n a b) (LogicalLimit.mk n b a) rfl rfl ha hb hb ha).mp h).1

/-- The Limits `offset = 1, count = 2` and `offset = 2, count = 1` at type
tag 6 and location tag 0, an instance of the second part of
`limit_hashCode_injective`. -/
theorem limit_hashCode_injective_witness :
    (LogicalLimit.mk (baseLogicalPlan.mk 1 6 0 ([] : List Unit)) 1 2).HashCode
      ≠ (LogicalLimit.mk (baseLogicalPlan.mk 1 6 0 ([] : List Unit)) 2 1).HashCode :=
  (@limit_hashCode_injective Unit).2 (baseLogicalPlan.mk 1 6 0 []) 1 2
    (by decide) (by decide) (by decide)

/-! ## The child plans -/

/-- C17: the specialized fingerprints ignore the child plans. Two Projections
that agree on type tag, location tag and expression fingerprints, two
Selections that agree on type tag, location tag and condition fingerprints,
and two Limits that agree on type tag, location tag, offset and count have
byte-identical fingerprints, whatever their plan IDs and child plans are. -/
theorem hashCode_ignores_children {Plan : Type} :
    (∀ p q : LogicalProjection Plan, p.tpID = q.tpID → p.blockOffset = q.blockOffset →
      p.Exprs.map (fun expr => expr.HashCode) = q.Exprs.map (fun expr => expr.HashCode) →
      p.HashCode = q.HashCode) ∧
    (∀ p q : LogicalSelection Plan, p.tpID = q.tpID → p.blockOffset = q.blockOffset →
      p.Conditions.map (fun expr => expr.HashCode)
        = q.Conditions.map (fun expr => expr.HashCode) →
      p.HashCode = q.HashCode) ∧
    (∀ p q : LogicalLimit Plan, p.tpID = q.tpID → p.blockOffset = q.blockOffset →
      p.Offset = q.Offset → p.Count = q.Count → p.HashCode = q.HashCode) := by
  refine ⟨?_, ?_, ?_⟩
  · intro p q htp hoff he
    have hlen : p.Exprs.length = q.Exprs.length := by
      simpa using congrArg List.length he
    rw [LogicalProjection_hashCode_eq, LogicalProjection_hashCode_eq, htp, hoff, he, hlen]
  · intro p q htp hoff he
    have hlen : p.Conditions.length = q.Conditions.length := by
      simpa using congrArg List.length he
    rw [LogicalSelection_hashCode_eq, LogicalSelection_hashCode_eq, htp, hoff, he, hlen]
  · intro p q htp hoff ho hc
    rw [LogicalLimit_hashCode_eq, LogicalLimit_hashCode_eq, htp, hoff, ho, hc]

/-- Two Projections with the same tags and expressions, one over a child with
fingerprint `[0, 0, 0, 1]` and one over a child with fingerprint
`[0, 0, 0, 2]`: the children differ and the parents' fingerprints coincide, an
instance of the first part of `hashCode_ignores_children`. -/
theorem hashCode_ignores_children_witness :
    (LogicalPlan.base (baseLogicalPlan.mk 1 9 0 [])).HashCode
      ≠ (LogicalPlan.base (baseLogicalPlan.mk 2 9 0 [])).HashCode ∧
    (LogicalProjection.mk
        (baseLogicalPlan.mk 5 3 0 [LogicalPlan.base (baseLogicalPlan.mk 1 9 0 [])])
        [Expression.mk [1], Expression.mk [2, 2]]).HashCode
      = (LogicalProjection.mk
        (baseLogicalPlan.mk 6 3 0 [LogicalPlan.base (baseLogicalPlan.mk 2 9 0 [])])
        [Expression.mk [1], Expression.mk [2, 2]]).HashCode :=
  ⟨by decide, (@hashCode_ignores_children LogicalPlan).1 _ _ rfl rfl rfl⟩

end core
